import Mathlib

set_option allowUnsafeReducibility true in
attribute [semireducible] Rat.mul Rat.inv Rat.add Rat.sub Rat.div Rat.ofScientific

/-!
Shallow embedding of the heatmap-analysis pipeline of shorts-maker
(src/bulk_processor.py: parse_svg_heatmap binning, analyze_heatmap_data,
duration_to_seconds) and of the transcript extraction
(src/transcript_utils.py: extract_clip_transcripts).

Python floats are modelled as rationals; Python's builtin `round` is
modelled as round-half-to-even on the exact rational value.
-/

/-- Round-half-to-even of a rational to an integer, the semantics of the
Python builtin `round` on an exactly represented value. -/
def roundHalfEven (x : ℚ) : ℤ :=
  let f := ⌊x⌋
  if x - f < 1/2 then f
  else if 1/2 < x - f then f + 1
  else if f % 2 = 0 then f else f + 1

/-- Python `round(x, 2)` on the exact rational value. -/
def round2 (x : ℚ) : ℚ := (roundHalfEven (x * 100) : ℚ) / 100

/-- One element of the `normalized` list built in parse_svg_heatmap:
the dict with keys "duration" (a timestamp) and "attention". -/
structure NormPoint where
  duration : ℚ
  attention : ℚ
deriving DecidableEq

/-- One element of the `condensed` list of parse_svg_heatmap, i.e. one
one-second bin: the dict with keys "duration" (the second) and "Attention". -/
structure HeatPoint where
  duration : ℚ
  attention : ℚ
deriving DecidableEq

/-- Sum of the attentions of a list of normalized points. -/
def attSumN (l : List NormPoint) : ℚ := (l.map NormPoint.attention).sum

/-- `condensed[-1]["Attention"] if condensed else 50.0` from parse_svg_heatmap. -/
def lastAttention (condensed : List HeatPoint) : ℚ :=
  match condensed.getLast? with
  | some p => p.attention
  | none => 50

/-- `[p for p in normalized if sec <= p["duration"] < sec + 1]`: the
samples that fall into the one-second bucket of second `sec`. -/
def binFilter (normalized : List NormPoint) (sec : Nat) : List NormPoint :=
  normalized.filter
    (fun p => decide ((sec : ℚ) ≤ p.duration) && decide (p.duration < (sec : ℚ) + 1))

/-- Body of the `for sec in range(video_duration)` binning loop in
parse_svg_heatmap (src/bulk_processor.py lines 172-179). -/
def binStep (normalized : List NormPoint) (condensed : List HeatPoint) (sec : Nat) :
    List HeatPoint :=
  let points_in_sec := binFilter normalized sec
  if points_in_sec.length ≠ 0 then
    condensed ++ [⟨(sec : ℚ), round2 (attSumN points_in_sec / (points_in_sec.length : ℚ))⟩]
  else
    condensed ++ [⟨(sec : ℚ), lastAttention condensed⟩]

/-- The binning stage of parse_svg_heatmap (lines 170-181): one bin per
second `0 .. video_duration - 1`. -/
def binPoints (normalized : List NormPoint) (video_duration : Nat) : List HeatPoint :=
  (List.range video_duration).foldl (binStep normalized) []

/-- The `current_clip` dict of analyze_heatmap_data. -/
structure Cand where
  start : ℚ
  peak : ℚ
  «end» : ℚ
  points : List ℚ
deriving DecidableEq

/-- Sum of the attentions of a list of binned points. -/
def attSum (l : List HeatPoint) : ℚ := (l.map HeatPoint.attention).sum

/-- `avg = sum(p["Attention"] for p in heatmap_points) / len(heatmap_points)`
(src/bulk_processor.py line 194). -/
def avgOf (pts : List HeatPoint) : ℚ := attSum pts / (pts.length : ℚ)

/-- `threshold = avg * 1.15` (src/bulk_processor.py line 195). -/
def thresholdOf (pts : List HeatPoint) : ℚ := avgOf pts * 1.15

/-- The forward scan of analyze_heatmap_data (lines 203-246).  The first
list argument is the remaining suffix of `pts` starting at index `i`; the
`Option Cand` is `current_clip`, the two rationals are `peak_value` and
`peak_time`.  The returned candidates are in emission order, the candidate
still open at the end of the sequence (emitted with end + 60) last. -/
def scanFrom (pts : List HeatPoint) (thr : ℚ) :
    List HeatPoint → Nat → Option Cand → ℚ → ℚ → List Cand
  | [], _, cur, _, _ =>
    match cur with
    | none => []
    | some c => [{ c with «end» := c.«end» + 60 }]
  | point :: rest, i, cur, pv, pt =>
    if thr < point.attention then
      match cur with
      | none =>
        scanFrom pts thr rest (i + 1)
          (some { start := (pts.getD (i - 5) ⟨0, 0⟩).duration
                , peak := point.duration
                , «end» := point.duration
                , points := [point.attention] })
          point.attention point.duration
      | some c =>
        let c' := { c with «end» := point.duration, points := c.points ++ [point.attention] }
        if pv < point.attention then scanFrom pts thr rest (i + 1) (some c') point.attention point.duration
        else scanFrom pts thr rest (i + 1) (some c') pv pt
    else
      match cur with
      | none => scanFrom pts thr rest (i + 1) none pv pt
      | some c =>
        if ((point :: rest).take 3).all (fun p => decide (p.attention < thr)) then
          { c with «end» := (pts.getD (min (i + 5) (pts.length - 1)) ⟨0, 0⟩).duration
                 , peak := pt }
            :: scanFrom pts thr rest (i + 1) none 0 0
        else
          scanFrom pts thr rest (i + 1) (some c) pv pt

/-- The in-place merge of an overlapping clip into `merged[-1]`
(src/bulk_processor.py lines 255-260). -/
def mergeClips (last c : Cand) : Cand :=
  { last with
    «end» := max last.«end» c.«end»
    , points := last.points ++ c.points
    , peak := if last.peak < c.peak then c.peak else last.peak }

/-- Left-to-right sweep of the merge pass: `last` is `merged[-1]`. -/
def mergeGo : Cand → List Cand → List Cand
  | last, [] => [last]
  | last, c :: rest =>
    if c.start ≤ last.«end» then mergeGo (mergeClips last c) rest
    else last :: mergeGo c rest

/-- `sorted(clips, key=lambda x: x["start"])` (a stable ascending sort). -/
def sortByStart (l : List Cand) : List Cand :=
  l.insertionSort (fun a b => a.start ≤ b.start)

/-- The sweep of the merge pass over an already sorted candidate list. -/
def mergeSweep : List Cand → List Cand
  | [] => []
  | c :: rest => mergeGo c rest

/-- The full merge pass of analyze_heatmap_data (lines 248-262). -/
def mergePass (l : List Cand) : List Cand := mergeSweep (sortByStart l)

/-- One element of the `final_clips` list of analyze_heatmap_data. -/
structure FinalClip where
  start : ℚ
  «end» : ℚ
  average_attention : ℚ
deriving DecidableEq

/-- Emission of one merged clip (src/bulk_processor.py lines 266-272):
the end gets a further 60 seconds, the average of the tracked points is
rounded to two decimals. -/
def emitClip (c : Cand) : FinalClip :=
  { start := c.start
  , «end» := c.«end» + 60
  , average_attention := round2 (c.points.sum / (c.points.length : ℚ)) }

/-- `final_clips.sort(key=..., reverse=True)`: stable descending sort by
average attention. -/
def sortByAvgDesc (l : List FinalClip) : List FinalClip :=
  l.insertionSort (fun a b => b.average_attention ≤ a.average_attention)

/-- The candidate list produced by the forward scan of analyze_heatmap_data. -/
def candidatesOf (pts : List HeatPoint) : List Cand :=
  scanFrom pts (thresholdOf pts) pts 0 none 0 0

/-- The clip list after the merge pass of analyze_heatmap_data. -/
def mergedOf (pts : List HeatPoint) : List Cand :=
  mergePass (candidatesOf pts)

/-- Return value of analyze_heatmap_data: either the bare `{}` returned on
empty input (line 191) or the populated result dict (lines 276-280). -/
inductive AnalyzeResult where
  | emptyDict
  | result (average_attention : ℚ) (clips : List FinalClip) (total_clips : Nat)
deriving DecidableEq

/-- analyze_heatmap_data (src/bulk_processor.py lines 188-280). -/
def analyze_heatmap_data (heatmap_points : List HeatPoint) : AnalyzeResult :=
  if heatmap_points.length = 0 then .emptyDict
  else
    let final_clips := sortByAvgDesc ((mergedOf heatmap_points).map emitClip)
    .result (round2 (avgOf heatmap_points)) final_clips final_clips.length

/-- `result.get("clips", [])`, the way every caller reads the clips out of
the result of analyze_heatmap_data (src/bulk_processor.py line 336). -/
def getClips (r : AnalyzeResult) : List FinalClip :=
  match r with
  | .emptyDict => []
  | .result _ clips _ => clips

/-- Ghost record of how the scan closed a candidate: `fall i` for a close
by the sustained-fall rule while reading scan index `i`, `atEnd e` for the
candidate still open when the sequence ran out, whose end before the
60-second extension of line 245 was `e`. -/
inductive CloseInfo where
  | fall (i : Nat)
  | atEnd (e : ℚ)
deriving DecidableEq

/-- The forward scan of analyze_heatmap_data again, branch for branch the
same as `scanFrom`, but with each emitted candidate paired with the record
of how it was closed. -/
def scanFromT (pts : List HeatPoint) (thr : ℚ) :
    List HeatPoint → Nat → Option Cand → ℚ → ℚ → List (Cand × CloseInfo)
  | [], _, cur, _, _ =>
    match cur with
    | none => []
    | some c => [({ c with «end» := c.«end» + 60 }, CloseInfo.atEnd c.«end»)]
  | point :: rest, i, cur, pv, pt =>
    if thr < point.attention then
      match cur with
      | none =>
        scanFromT pts thr rest (i + 1)
          (some { start := (pts.getD (i - 5) ⟨0, 0⟩).duration
                , peak := point.duration
                , «end» := point.duration
                , points := [point.attention] })
          point.attention point.duration
      | some c =>
        let c' := { c with «end» := point.duration, points := c.points ++ [point.attention] }
        if pv < point.attention then scanFromT pts thr rest (i + 1) (some c') point.attention point.duration
        else scanFromT pts thr rest (i + 1) (some c') pv pt
    else
      match cur with
      | none => scanFromT pts thr rest (i + 1) none pv pt
      | some c =>
        if ((point :: rest).take 3).all (fun p => decide (p.attention < thr)) then
          ({ c with «end» := (pts.getD (min (i + 5) (pts.length - 1)) ⟨0, 0⟩).duration
                  , peak := pt }
            , CloseInfo.fall i)
            :: scanFromT pts thr rest (i + 1) none 0 0
        else
          scanFromT pts thr rest (i + 1) (some c) pv pt

/-- What the close records say about the end field a candidate is emitted
with: a fall-closed candidate's end is the plain lookahead point's
duration (`min(i+5, lastIndex)`), with no buffer; the candidate still open
at the end of the sequence has its pre-close end plus 60. -/
def CloseSpec (pts : List HeatPoint) (p : Cand × CloseInfo) : Prop :=
  match p.2 with
  | CloseInfo.fall i => p.1.«end» = (pts.getD (min (i + 5) (pts.length - 1)) ⟨0, 0⟩).duration
  | CloseInfo.atEnd e => p.1.«end» = e + 60

/-- `points.map (fun p => {p with attention := p.attention + k})`: the
series with every attention raised by the constant `k` (spec §8,
threshold monotonicity). -/
def shiftAtt (k : ℚ) (pts : List HeatPoint) : List HeatPoint :=
  pts.map (fun p => { p with attention := p.attention + k })

/-- Attention value at second `s` of the 120-second end-to-end scenario of
spec §8: flat 40 for seconds 0-49, 90 for 50-70 with a one-second dip to
35 at second 61, 20 from 71 on. -/
def c4att (s : Nat) : ℚ :=
  if s ≤ 49 then 40
  else if s = 61 then 35
  else if s ≤ 70 then 90
  else 20

/-- The 120-second binned series of the end-to-end scenario of spec §8. -/
def c4series : List HeatPoint :=
  (List.range 120).map (fun (s : Nat) => ⟨(s : ℚ), c4att s⟩)

/-- Attention value at second `s` of a small 30-second series with a single
plateau: 100 at seconds 10-12, 10 everywhere else. -/
def c1att (s : Nat) : ℚ := if 10 ≤ s ∧ s ≤ 12 then 100 else 10

/-- A 30-second binned series whose single candidate is closed by the
sustained-fall rule during the scan (at index 13, lookahead end 18). -/
def c1series : List HeatPoint :=
  (List.range 30).map (fun (s : Nat) => ⟨(s : ℚ), c1att s⟩)

/-- Python `s.split(sep)` for a one-character separator, generalized to a
character predicate: cut at every matching character, keeping empty
pieces (so the result always has one piece more than there are matches).
Python strings are modelled as `List Char`. -/
def pySplit (p : Char → Bool) : List Char → List (List Char)
  | [] => [[]]
  | c :: rest =>
    if p c then [] :: pySplit p rest
    else
      match pySplit p rest with
      | t :: ts => (c :: t) :: ts
      | [] => [[c]]

/-- One transcript entry: the dict with keys "text", "start", "duration"
(src/transcript_utils.py).  The text is a Python string, modelled as a
character list. -/
structure TEntry where
  text : List Char
  start : ℚ
  duration : ℚ
deriving DecidableEq

/-- A clip as consumed by extract_clip_transcripts: only its "start" and
"end" keys are read. -/
structure ClipIn where
  start : ℚ
  «end» : ℚ
deriving DecidableEq

/-- One element of the `processed_clips` list of extract_clip_transcripts:
the clip together with its "transcript" and "word_count" keys. -/
structure ProcessedClip where
  clip : ClipIn
  transcript : List TEntry
  word_count : Nat
deriving DecidableEq

/-- `len(s.split())` in Python: the number of maximal whitespace-free,
non-empty tokens of `s` (splitting on every whitespace character and
discarding the empty pieces). -/
def pyWordCount (s : List Char) : Nat :=
  ((pySplit Char.isWhitespace s).filter (fun w => w ≠ [])).length

/-- extract_clip_transcripts (src/transcript_utils.py lines 7-41). -/
def extract_clip_transcripts (transcript : List TEntry) (clips : List ClipIn) :
    List ProcessedClip :=
  clips.map (fun clip =>
    let clip_entries := transcript.filter
      (fun e => decide (e.start < clip.«end») && decide (clip.start < e.start + e.duration))
    { clip := clip
    , transcript := clip_entries
    , word_count := (clip_entries.map (fun e => pyWordCount e.text)).sum })

/-- The ["start","start+duration") interval of a transcript entry meets the
[clip.start, clip.end) interval of a clip (spec §6: "transcript entries
whose [start, start+duration) interval overlaps [clip.start, clip.end)"). -/
def OverlapsClip (e : TEntry) (c : ClipIn) : Prop :=
  ∃ t : ℚ, e.start ≤ t ∧ t < e.start + e.duration ∧ c.start ≤ t ∧ t < c.«end»

/-- Surrounding whitespace stripped from a Python string. -/
def pyStrip (s : List Char) : List Char :=
  ((s.dropWhile Char.isWhitespace).reverse.dropWhile Char.isWhitespace).reverse

/-- Model of the Python builtin `int(str)`: optional surrounding
whitespace, an optional single sign, then a non-empty run of decimal
digits (underscore digit separators are not modelled). `none` models a
raised ValueError. -/
def pyInt (s : List Char) : Option ℤ :=
  let t := pyStrip s
  let isNeg := t.head? = some '-'
  let core := if isNeg ∨ t.head? = some '+' then t.tail else t
  if core = [] then none
  else if core.all Char.isDigit then
    let n : ℤ := core.foldl (fun acc c => acc * 10 + ((c.toNat - 48 : ℕ) : ℤ)) 0
    some (if isNeg then -n else n)
  else none

/-- duration_to_seconds (src/bulk_processor.py lines 283-294):
`parts = list(map(int, duration.split(":")))` under a try/except that
turns any ValueError into 0, then the 2- and 3-part cases. -/
def duration_to_seconds (duration : List Char) : ℤ :=
  match ((pySplit (fun c => c = ':') duration).mapM pyInt) with
  | none => 0
  | some [a, b] => a * 60 + b
  | some [a, b, c] => a * 3600 + b * 60 + c
  | some _ => 0

/-! ## Helper lemmas -/

theorem attSum_cons (p : HeatPoint) (ps : List HeatPoint) :
    attSum (p :: ps) = p.attention + attSum ps := by
  simp [attSum]

theorem attSum_shiftAtt (k : ℚ) (pts : List HeatPoint) :
    attSum (shiftAtt k pts) = attSum pts + pts.length * k := by
  induction pts with
  | nil => simp [attSum, shiftAtt]
  | cons p ps ih =>
    have h1 : attSum (shiftAtt k (p :: ps)) = (p.attention + k) + attSum (shiftAtt k ps) := by
      simp [attSum, shiftAtt]
    rw [h1, ih, List.length_cons, attSum_cons]
    push_cast
    ring

theorem length_shiftAtt (k : ℚ) (pts : List HeatPoint) :
    (shiftAtt k pts).length = pts.length := by simp [shiftAtt]

theorem avgOf_shiftAtt (k : ℚ) (pts : List HeatPoint) (h : pts ≠ []) :
    avgOf (shiftAtt k pts) = avgOf pts + k := by
  have hlen : ((pts.length : ℚ)) ≠ 0 := Nat.cast_ne_zero.mpr (by simpa using h)
  rw [avgOf, avgOf, length_shiftAtt, attSum_shiftAtt]
  field_simp
  ring

/-! ## Claims -/

/-- C8: applied to an empty BinnedPoint list, analyze_heatmap_data returns
the bare empty dict without error (the function is total), and the
`.get("clips", [])` read every caller performs on that result yields an
empty clip list. -/
theorem c8_empty_input :
    analyze_heatmap_data [] = AnalyzeResult.emptyDict ∧
    getClips (analyze_heatmap_data []) = [] := ⟨rfl, rfl⟩

/-- C2 counterexample: on the one-point series with attention 100 and
k = 1, `threshold − average` is 15 before the shift and 15.15 after, so it
is not invariant under raising every attention by a constant. -/
theorem c2_counterexample :
    thresholdOf (shiftAtt 1 [⟨0, 100⟩]) - avgOf (shiftAtt 1 [⟨0, 100⟩]) ≠
      thresholdOf [⟨0, 100⟩] - avgOf [⟨0, 100⟩] := by decide

/-- C2 (amended): raising every attention by a constant `k` shifts the
threshold (computed as average · 1.15) by exactly 1.15·k, and shifts
`threshold − average` by 0.15·k — the difference is invariant only for
k = 0, not in general. -/
theorem c2_amended_threshold_shift (pts : List HeatPoint) (k : ℚ) (h : pts ≠ []) :
    thresholdOf (shiftAtt k pts) = thresholdOf pts + 1.15 * k ∧
    thresholdOf (shiftAtt k pts) - avgOf (shiftAtt k pts)
      = (thresholdOf pts - avgOf pts) + 0.15 * k := by
  have havg := avgOf_shiftAtt k pts h
  refine ⟨?_, ?_⟩
  · rw [thresholdOf, thresholdOf, havg]; ring
  · rw [thresholdOf, thresholdOf, havg]; ring

/-- Witness for `c2_amended_threshold_shift` at the one-point series of
attention 100 and k = 1. -/
theorem c2_amended_threshold_shift_witness :
    thresholdOf (shiftAtt 1 [⟨0, 100⟩]) = thresholdOf [⟨0, 100⟩] + 1.15 * 1 ∧
    thresholdOf (shiftAtt 1 [⟨0, 100⟩]) - avgOf (shiftAtt 1 [⟨0, 100⟩])
      = (thresholdOf [⟨0, 100⟩] - avgOf [⟨0, 100⟩]) + 0.15 * 1 :=
  c2_amended_threshold_shift [⟨0, 100⟩] 1 (by decide)

set_option maxRecDepth 100000 in
/-- C4 counterexample: on the 120-second scenario series the detector does
return exactly one clip, but it spans seconds 45 to 136 and its
averageAttention is exactly 90, not approximately 85 (and the end is 136,
not 135): the dip second 61 is never appended to the candidate's points
list, so the average is the mean of twenty values 90. -/
theorem c4_counterexample :
    getClips (analyze_heatmap_data c4series) = [⟨45, 136, 90⟩] ∧
    ∀ c ∈ getClips (analyze_heatmap_data c4series),
      c.average_attention ≠ 85 ∧ c.«end» ≠ 135 := by decide

set_option maxRecDepth 100000 in
/-- C4 (amended): on the 120-second scenario series (flat 40 for seconds
0-49, 90 for 50-70 with a one-second dip to 35 at 61, 20 from 71 on) the
detector returns exactly one clip, spanning seconds 45 to 136, with
averageAttention exactly 90; the single-second dip at 61 does not satisfy
the 3-point sustained-fall rule and does not split the clip (its value is
also excluded from the averaged points).  The global rounded average is
40.12. -/
theorem c4_amended_scenario :
    analyze_heatmap_data c4series
      = AnalyzeResult.result (1003/25) [⟨45, 136, 90⟩] 1 := by decide

set_option maxRecDepth 100000 in
/-- C1 counterexample: on `c1series` the scan closes its single candidate
via the sustained-fall rule at index 13: the candidate is emitted with end
18 (the plain lookahead `min(13+5, 29)`), with no 60-second buffer at
close time, and the output clip's end is 78 = 18 + 60 (one buffer), not
18 + 60 + 60 as the claim's double-buffer account predicts. -/
theorem c1_counterexample :
    candidatesOf c1series = [⟨5, 10, 18, [100, 100, 100]⟩] ∧
    getClips (analyze_heatmap_data c1series) = [⟨5, 78, 100⟩] ∧
    ((18 : ℚ) ≠ 18 + 60 ∧ (78 : ℚ) ≠ 18 + 60 + 60) := by decide

/-- C5 counterexample: a second containing a single sample of attention
1/1000 gets bin value 0 — the mean rounded to two decimals — not the
arithmetic mean of the samples itself. -/
theorem c5_counterexample :
    binPoints [⟨0, 1/1000⟩] 1 = [⟨0, 0⟩] ∧ (0 : ℚ) ≠ 1/1000 := by decide

/-- C9 counterexample: a zero-duration entry has the empty half-open
interval [5, 5), which overlaps no clip interval, yet extract_clip_transcripts
attaches it to the clip [0, 10) (and counts its word), because its test
`entry.start < clip.end and entry.start + entry.duration > clip.start`
does not require the entry's interval to be non-empty. -/
theorem c9_counterexample :
    extract_clip_transcripts [⟨"hi".toList, 5, 0⟩] [⟨0, 10⟩]
      = [⟨⟨0, 10⟩, [⟨"hi".toList, 5, 0⟩], 1⟩] ∧
    ¬ OverlapsClip ⟨"hi".toList, 5, 0⟩ ⟨0, 10⟩ := by
  constructor
  · decide
  · rintro ⟨t, h1, h2, h3, h4⟩
    simp only at h1 h2
    linarith

/-- C10: duration_to_seconds is total and never raises: with exactly two
colon-separated parts all accepted by int() it returns parts[0]*60 +
parts[1]; with exactly three, parts[0]*3600 + parts[1]*60 + parts[2]; when
any part is rejected by int() (the ValueError path) or the number of parts
is neither two nor three, it returns 0. -/
theorem c10_duration_to_seconds :
    (∀ s : List Char, ∀ a b : ℤ,
        (pySplit (fun c => c = ':') s).mapM pyInt = some [a, b] →
        duration_to_seconds s = a * 60 + b) ∧
    (∀ s : List Char, ∀ a b c : ℤ,
        (pySplit (fun c => c = ':') s).mapM pyInt = some [a, b, c] →
        duration_to_seconds s = a * 3600 + b * 60 + c) ∧
    (∀ s : List Char, (pySplit (fun c => c = ':') s).mapM pyInt = none →
        duration_to_seconds s = 0) ∧
    (∀ s : List Char, ∀ parts : List ℤ,
        (pySplit (fun c => c = ':') s).mapM pyInt = some parts →
        parts.length ≠ 2 → parts.length ≠ 3 → duration_to_seconds s = 0) := by
  refine ⟨?_, ?_, ?_, ?_⟩
  · intro s a b hp
    unfold duration_to_seconds
    rw [hp]
  · intro s a b c hp
    unfold duration_to_seconds
    rw [hp]
  · intro s hp
    unfold duration_to_seconds
    rw [hp]
  · intro s parts hp h2 h3
    unfold duration_to_seconds
    rw [hp]
    match parts, h2, h3 with
    | [], _, _ => rfl
    | [a], _, _ => rfl
    | [a, b], h2, _ => exact absurd rfl h2
    | [a, b, c], _, h3 => exact absurd rfl h3
    | a :: b :: c :: d :: rest, _, _ => rfl

/-- Witness for `c10_duration_to_seconds` on the concrete strings "2:30",
"1:02:03", "abc" and "1:2:3:4". -/
theorem c10_duration_to_seconds_witness :
    duration_to_seconds "2:30".toList = 2 * 60 + 30 ∧
    duration_to_seconds "1:02:03".toList = 1 * 3600 + 2 * 60 + 3 ∧
    duration_to_seconds "abc".toList = 0 ∧
    duration_to_seconds "1:2:3:4".toList = 0 :=
  ⟨c10_duration_to_seconds.1 "2:30".toList 2 30 (by decide),
   c10_duration_to_seconds.2.1 "1:02:03".toList 1 2 3 (by decide),
   c10_duration_to_seconds.2.2.1 "abc".toList (by decide),
   c10_duration_to_seconds.2.2.2 "1:2:3:4".toList [1, 2, 3, 4] (by decide)
     (by decide) (by decide)⟩

instance : IsTotal Cand (fun a b => a.start ≤ b.start) :=
  ⟨fun a b => le_total a.start b.start⟩

instance : IsTrans Cand (fun a b => a.start ≤ b.start) :=
  ⟨fun _ _ _ h1 h2 => le_trans h1 h2⟩

theorem mergeClips_start (last c : Cand) : (mergeClips last c).start = last.start := rfl

theorem mergeGo_head : ∀ (rest : List Cand) (c : Cand),
    ∃ d t, mergeGo c rest = d :: t ∧ d.start = c.start := by
  intro rest
  induction rest with
  | nil => exact fun c => ⟨c, [], rfl, rfl⟩
  | cons b bs ih =>
    intro c
    by_cases h : b.start ≤ c.«end»
    · obtain ⟨d, t, hdt, hs⟩ := ih (mergeClips c b)
      exact ⟨d, t, by rw [mergeGo, if_pos h, hdt], by rw [hs, mergeClips_start]⟩
    · exact ⟨c, mergeGo b bs, by rw [mergeGo, if_neg h], rfl⟩

theorem mergeGo_starts : ∀ (rest : List Cand) (c : Cand),
    ∀ d ∈ mergeGo c rest, ∃ e ∈ c :: rest, d.start = e.start := by
  intro rest
  induction rest with
  | nil =>
    intro c d hd
    rw [mergeGo, List.mem_singleton] at hd
    exact ⟨c, List.mem_singleton_self c, by rw [hd]⟩
  | cons b bs ih =>
    intro c d hd
    by_cases h : b.start ≤ c.«end»
    · rw [mergeGo, if_pos h] at hd
      obtain ⟨e, he, hde⟩ := ih (mergeClips c b) d hd
      rcases List.mem_cons.mp he with rfl | hbs
      · exact ⟨c, List.mem_cons_self c _, hde⟩
      · exact ⟨e, List.mem_cons_of_mem c (List.mem_cons_of_mem b hbs), hde⟩
    · rw [mergeGo, if_neg h, List.mem_cons] at hd
      rcases hd with rfl | hd
      · exact ⟨d, List.mem_cons_self d _, rfl⟩
      · obtain ⟨e, he, hde⟩ := ih b d hd
        exact ⟨e, List.mem_cons_of_mem c he, hde⟩

theorem mergeGo_sorted_chain : ∀ (rest : List Cand) (c : Cand),
    List.Sorted (fun a b => a.start ≤ b.start) (c :: rest) →
    List.Sorted (fun a b => a.start ≤ b.start) (mergeGo c rest) ∧
    List.Chain' (fun a b : Cand => a.«end» < b.start) (mergeGo c rest) := by
  intro rest
  induction rest with
  | nil =>
    intro c _
    rw [mergeGo]
    exact ⟨List.sorted_singleton c, List.chain'_singleton c⟩
  | cons b bs ih =>
    intro c hs
    rw [List.sorted_cons] at hs
    obtain ⟨hc, hsb⟩ := hs
    by_cases h : b.start ≤ c.«end»
    · rw [mergeGo, if_pos h]
      refine ih (mergeClips c b) ?_
      rw [List.sorted_cons]
      refine ⟨?_, (List.sorted_cons.mp hsb).2⟩
      intro e he
      rw [mergeClips_start]
      exact hc e (List.mem_cons_of_mem b he)
    · rw [mergeGo, if_neg h]
      obtain ⟨hsort, hchain⟩ := ih b hsb
      constructor
      · rw [List.sorted_cons]
        refine ⟨?_, hsort⟩
        intro d hd
        obtain ⟨e, he, hde⟩ := mergeGo_starts bs b d hd
        rw [hde]
        exact hc e he
      · obtain ⟨d, t, hdt, hds⟩ := mergeGo_head bs b
        rw [hdt]
        rw [hdt] at hchain
        exact List.Chain'.cons (by rw [hds]; exact lt_of_not_le h) hchain

theorem mergePass_sorted_chain (l : List Cand) :
    List.Sorted (fun a b => a.start ≤ b.start) (mergePass l) ∧
    List.Chain' (fun a b : Cand => a.«end» < b.start) (mergePass l) := by
  rw [mergePass]
  have hs : List.Sorted (fun a b => a.start ≤ b.start) (sortByStart l) :=
    List.sorted_insertionSort _ l
  match hl : sortByStart l with
  | [] => exact ⟨List.sorted_nil, List.chain'_nil⟩
  | c :: rest =>
    rw [hl] at hs
    rw [mergeSweep]
    exact mergeGo_sorted_chain rest c hs

/-- C3: for every input series, the clip list after the merge pass of the
Clip Detector is sorted by start, and every adjacent pair in it has the
earlier clip's end strictly below the later clip's start: no overlap
remains after merging. -/
theorem c3_no_overlap (pts : List HeatPoint) :
    List.Sorted (fun a b => a.start ≤ b.start) (mergedOf pts) ∧
    List.Chain' (fun a b : Cand => a.«end» < b.start) (mergedOf pts) :=
  mergePass_sorted_chain (candidatesOf pts)

theorem mergeGo_of_chain : ∀ (rest : List Cand) (c : Cand),
    List.Chain' (fun a b : Cand => a.«end» < b.start) (c :: rest) →
    mergeGo c rest = c :: rest := by
  intro rest
  induction rest with
  | nil => intro c _; rfl
  | cons b bs ih =>
    intro c hchain
    rw [List.chain'_cons] at hchain
    rw [mergeGo, if_neg (not_le.mpr hchain.1), ih b hchain.2]

/-- C6: the merge pass of the Clip Detector (stable sort by start, then
the left-to-right overlap sweep) is idempotent: running it a second time
on its own output returns that output unchanged. -/
theorem c6_merge_idempotent (l : List Cand) :
    mergePass (mergePass l) = mergePass l := by
  obtain ⟨hsort, hchain⟩ := mergePass_sorted_chain l
  rw [mergePass, sortByStart, List.Sorted.insertionSort_eq hsort]
  match hl : mergePass l with
  | [] => rfl
  | c :: rest =>
    rw [hl] at hchain
    rw [mergeSweep, mergeGo_of_chain rest c hchain]

theorem getD_of_drop : ∀ (l : List HeatPoint) (i : Nat) (a : HeatPoint)
    (t : List HeatPoint) (d : HeatPoint), l.drop i = a :: t → l.getD i d = a := by
  intro l
  induction l with
  | nil => intro i a t d h; simp at h
  | cons x xs ih =>
    intro i a t d h
    cases i with
    | zero =>
      rw [List.drop_zero] at h
      rw [List.getD_cons_zero]
      exact (List.cons.injEq x xs a t ▸ h).1
    | succ n =>
      rw [List.drop_succ_cons] at h
      rw [List.getD_cons_succ]
      exact ih n a t d h

theorem drop_facts (pts : List HeatPoint) (i : Nat) (point : HeatPoint)
    (rest : List HeatPoint) (h : pts.drop i = point :: rest) :
    i < pts.length ∧ pts.getD i ⟨0, 0⟩ = point ∧ pts.drop (i + 1) = rest := by
  refine ⟨?_, getD_of_drop pts i point rest ⟨0, 0⟩ h, ?_⟩
  · by_contra hle
    rw [List.drop_eq_nil_of_le (Nat.le_of_not_lt hle)] at h
    exact List.noConfusion h
  · rw [← List.tail_drop, h]
    rfl

theorem scanFrom_end_gt_start (pts : List HeatPoint) (thr : ℚ)
    (hdur : ∀ i, i < pts.length → (pts.getD i ⟨0, 0⟩).duration = (i : ℚ)) :
    ∀ (rest : List HeatPoint) (i : Nat) (cur : Option Cand) (pv pt : ℚ),
      pts.drop i = rest →
      (∀ c, cur = some c → c.start ≤ c.«end» ∧ c.«end» + 1 ≤ (i : ℚ)) →
      ∀ d ∈ scanFrom pts thr rest i cur pv pt, d.start < d.«end» := by
  intro rest
  induction rest with
  | nil =>
    intro i cur pv pt _ hinv d hd
    cases cur with
    | none => simp [scanFrom] at hd
    | some c =>
      simp only [scanFrom, List.mem_singleton] at hd
      obtain ⟨h1, h2⟩ := hinv c rfl
      rw [hd]
      simp only
      linarith
  | cons point rest ih =>
    intro i cur pv pt hdrop hinv d hd
    obtain ⟨hi, hpoint, hdrop1⟩ := drop_facts pts i point rest hdrop
    have hdi : point.duration = (i : ℚ) := by rw [← hpoint]; exact hdur i hi
    by_cases hth : thr < point.attention
    · cases cur with
      | none =>
        simp only [scanFrom, if_pos hth] at hd
        refine ih (i + 1) _ point.attention point.duration hdrop1 ?_ d hd
        intro c hc
        rw [Option.some.injEq] at hc
        rw [← hc]
        constructor
        · simp only
          rw [hdi, hdur (i - 5) (lt_of_le_of_lt (Nat.sub_le i 5) hi)]
          exact_mod_cast Nat.sub_le i 5
        · simp only
          rw [hdi]
          push_cast
          linarith
      | some c =>
        obtain ⟨hc1, hc2⟩ := hinv c rfl
        simp only [scanFrom, if_pos hth] at hd
        by_cases hpv : pv < point.attention
        · rw [if_pos hpv] at hd
          refine ih (i + 1) _ point.attention point.duration hdrop1 ?_ d hd
          intro c' hc'
          rw [Option.some.injEq] at hc'
          rw [← hc']
          refine ⟨?_, ?_⟩ <;> simp only <;> rw [hdi] <;> push_cast <;> linarith
        · rw [if_neg hpv] at hd
          refine ih (i + 1) _ pv pt hdrop1 ?_ d hd
          intro c' hc'
          rw [Option.some.injEq] at hc'
          rw [← hc']
          refine ⟨?_, ?_⟩ <;> simp only <;> rw [hdi] <;> push_cast <;> linarith
    · cases cur with
      | none =>
        simp only [scanFrom, if_neg hth] at hd
        exact ih (i + 1) none pv pt hdrop1 (fun c hc => Option.noConfusion hc) d hd
      | some c =>
        obtain ⟨hc1, hc2⟩ := hinv c rfl
        simp only [scanFrom, if_neg hth] at hd
        by_cases hfall :
            (((point :: rest).take 3).all (fun p => decide (p.attention < thr))) = true
        · rw [if_pos hfall, List.mem_cons] at hd
          rcases hd with hd | hd
          · rw [hd]
            simp only
            have hmin : i ≤ min (i + 5) (pts.length - 1) := by omega
            rw [hdur (min (i + 5) (pts.length - 1)) (by omega)]
            have : (i : ℚ) ≤ ((min (i + 5) (pts.length - 1) : ℕ) : ℚ) :=
              Nat.cast_le.mpr hmin
            linarith
          · exact ih (i + 1) none 0 0 hdrop1 (fun c hc => Option.noConfusion hc) d hd
        · rw [if_neg hfall] at hd
          refine ih (i + 1) (some c) pv pt hdrop1 ?_ d hd
          intro c' hc'
          rw [Option.some.injEq] at hc'
          rw [← hc']
          exact ⟨hc1, by push_cast; linarith⟩

theorem mergeGo_end_gt_start : ∀ (rest : List Cand) (c : Cand),
    c.start < c.«end» → (∀ b ∈ rest, b.start < b.«end») →
    ∀ d ∈ mergeGo c rest, d.start < d.«end» := by
  intro rest
  induction rest with
  | nil =>
    intro c hc _ d hd
    rw [mergeGo, List.mem_singleton] at hd
    rw [hd]; exact hc
  | cons b bs ih =>
    intro c hc hrest d hd
    by_cases h : b.start ≤ c.«end»
    · rw [mergeGo, if_pos h] at hd
      refine ih (mergeClips c b) ?_ (fun x hx => hrest x (List.mem_cons_of_mem b hx)) d hd
      show c.start < max c.«end» b.«end»
      exact lt_max_of_lt_left hc
    · rw [mergeGo, if_neg h, List.mem_cons] at hd
      rcases hd with rfl | hd
      · exact hc
      · exact ih b (hrest b (List.mem_cons_self b bs))
          (fun x hx => hrest x (List.mem_cons_of_mem b hx)) d hd

theorem candidatesOf_end_gt_start (pts : List HeatPoint)
    (hdur : ∀ i, i < pts.length → (pts.getD i ⟨0, 0⟩).duration = (i : ℚ)) :
    ∀ d ∈ candidatesOf pts, d.start < d.«end» :=
  scanFrom_end_gt_start pts (thresholdOf pts) hdur pts 0 none 0 0 (List.drop_zero pts)
    (fun _ hc => Option.noConfusion hc)

theorem mergedOf_end_gt_start (pts : List HeatPoint)
    (hdur : ∀ i, i < pts.length → (pts.getD i ⟨0, 0⟩).duration = (i : ℚ)) :
    ∀ m ∈ mergedOf pts, m.start < m.«end» := by
  intro m hm
  have hall : ∀ d ∈ sortByStart (candidatesOf pts), d.start < d.«end» := by
    intro d hd
    exact candidatesOf_end_gt_start pts hdur d
      ((List.perm_insertionSort _ _).mem_iff.mp hd)
  rw [mergedOf, mergePass] at hm
  match hl : sortByStart (candidatesOf pts) with
  | [] => rw [hl] at hm; simp [mergeSweep] at hm
  | c :: rest =>
    rw [hl] at hm hall
    rw [mergeSweep] at hm
    exact mergeGo_end_gt_start rest c (hall c (List.mem_cons_self c rest))
      (fun b hb => hall b (List.mem_cons_of_mem c hb)) m hm

/-- C7: on any binner-shaped input series — the point at index i has
duration i, as the Binner produces for seconds 0..D-1 — every clip the
Clip Detector returns satisfies end > start. -/
theorem c7_end_gt_start (pts : List HeatPoint)
    (hdur : ∀ i, i < pts.length → (pts.getD i ⟨0, 0⟩).duration = (i : ℚ)) :
    ∀ fc ∈ getClips (analyze_heatmap_data pts), fc.start < fc.«end» := by
  intro fc hfc
  by_cases hlen : pts.length = 0
  · rw [analyze_heatmap_data, if_pos hlen] at hfc
    simp [getClips] at hfc
  · rw [analyze_heatmap_data, if_neg hlen] at hfc
    simp only [getClips] at hfc
    have hfc2 : fc ∈ (mergedOf pts).map emitClip :=
      (List.perm_insertionSort _ _).mem_iff.mp hfc
    obtain ⟨m, hm, hfm⟩ := List.mem_map.mp hfc2
    have hend := mergedOf_end_gt_start pts hdur m hm
    rw [← hfm]
    show m.start < m.«end» + 60
    linarith

set_option maxRecDepth 100000 in
/-- Witness for `c7_end_gt_start`: the 30-second series `c1series` has
binner-shaped durations and its single output clip [45..78] satisfies
end > start. -/
theorem c7_end_gt_start_witness :
    (∀ i, i < c1series.length → (c1series.getD i ⟨0, 0⟩).duration = (i : ℚ)) ∧
    (⟨5, 78, 100⟩ : FinalClip).start < (⟨5, 78, 100⟩ : FinalClip).«end» :=
  ⟨by decide, c7_end_gt_start c1series (by decide) ⟨5, 78, 100⟩ (by decide)⟩

theorem scanFromT_fst (pts : List HeatPoint) (thr : ℚ) :
    ∀ (rest : List HeatPoint) (i : Nat) (cur : Option Cand) (pv pt : ℚ),
      (scanFromT pts thr rest i cur pv pt).map Prod.fst
        = scanFrom pts thr rest i cur pv pt := by
  intro rest
  induction rest with
  | nil =>
    intro i cur pv pt
    cases cur with
    | none => rfl
    | some c => rfl
  | cons point rest ih =>
    intro i cur pv pt
    by_cases hth : thr < point.attention
    · cases cur with
      | none => simp only [scanFromT, scanFrom, if_pos hth]; exact ih _ _ _ _
      | some c =>
        simp only [scanFromT, scanFrom, if_pos hth]
        by_cases hpv : pv < point.attention
        · rw [if_pos hpv, if_pos hpv]; exact ih _ _ _ _
        · rw [if_neg hpv, if_neg hpv]; exact ih _ _ _ _
    · cases cur with
      | none => simp only [scanFromT, scanFrom, if_neg hth]; exact ih _ _ _ _
      | some c =>
        simp only [scanFromT, scanFrom, if_neg hth]
        by_cases hfall :
            (((point :: rest).take 3).all (fun p => decide (p.attention < thr))) = true
        · rw [if_pos hfall, if_pos hfall, List.map_cons, ih _ _ _ _]
        · rw [if_neg hfall, if_neg hfall]; exact ih _ _ _ _

theorem scanFromT_closeSpec (pts : List HeatPoint) (thr : ℚ) :
    ∀ (rest : List HeatPoint) (i : Nat) (cur : Option Cand) (pv pt : ℚ),
      ∀ p ∈ scanFromT pts thr rest i cur pv pt, CloseSpec pts p := by
  intro rest
  induction rest with
  | nil =>
    intro i cur pv pt p hp
    cases cur with
    | none => simp [scanFromT] at hp
    | some c =>
      simp only [scanFromT, List.mem_singleton] at hp
      rw [hp]
      rfl
  | cons point rest ih =>
    intro i cur pv pt p hp
    by_cases hth : thr < point.attention
    · cases cur with
      | none =>
        simp only [scanFromT, if_pos hth] at hp
        exact ih _ _ _ _ p hp
      | some c =>
        simp only [scanFromT, if_pos hth] at hp
        by_cases hpv : pv < point.attention
        · rw [if_pos hpv] at hp; exact ih _ _ _ _ p hp
        · rw [if_neg hpv] at hp; exact ih _ _ _ _ p hp
    · cases cur with
      | none =>
        simp only [scanFromT, if_neg hth] at hp
        exact ih _ _ _ _ p hp
      | some c =>
        simp only [scanFromT, if_neg hth] at hp
        by_cases hfall :
            (((point :: rest).take 3).all (fun p => decide (p.attention < thr))) = true
        · rw [if_pos hfall, List.mem_cons] at hp
          rcases hp with hp | hp
          · rw [hp]; rfl
          · exact ih _ _ _ _ p hp
        · rw [if_neg hfall] at hp; exact ih _ _ _ _ p hp

theorem mem_getClips_emit (pts : List HeatPoint) :
    ∀ fc ∈ getClips (analyze_heatmap_data pts), ∃ m ∈ mergedOf pts, fc = emitClip m := by
  intro fc hfc
  by_cases hlen : pts.length = 0
  · rw [analyze_heatmap_data, if_pos hlen] at hfc
    simp [getClips] at hfc
  · rw [analyze_heatmap_data, if_neg hlen] at hfc
    simp only [getClips] at hfc
    have hfc2 : fc ∈ (mergedOf pts).map emitClip :=
      (List.perm_insertionSort _ _).mem_iff.mp hfc
    obtain ⟨m, hm, hfm⟩ := List.mem_map.mp hfc2
    exact ⟨m, hm, hfm.symm⟩

/-- C1 (amended): a candidate the scan closes via the sustained-fall rule
at index i is emitted with its end set to the plain lookahead point
`min(i+5, lastIndex)` and NO buffer at close time; the close-time
60-second buffer is applied only to a candidate still open when the
series ends; after the merge pass, every output clip's final end is its
merged candidate's end plus 60 — so end-of-series-closed clips carry two
60-second additions and scan-closed clips only the emission one.  Stated
via the instrumented scan `scanFromT`, whose candidates are exactly those
of the scan (first conjunct) and satisfy the close-time account
`CloseSpec` (second conjunct); the third conjunct is the single emission
buffer. -/
theorem c1_amended_buffers :
    (∀ (pts : List HeatPoint) (thr : ℚ) (rest : List HeatPoint) (i : Nat)
        (cur : Option Cand) (pv pt : ℚ),
      (scanFromT pts thr rest i cur pv pt).map Prod.fst
        = scanFrom pts thr rest i cur pv pt) ∧
    (∀ (pts : List HeatPoint) (thr : ℚ) (rest : List HeatPoint) (i : Nat)
        (cur : Option Cand) (pv pt : ℚ),
      ∀ p ∈ scanFromT pts thr rest i cur pv pt, CloseSpec pts p) ∧
    (∀ pts : List HeatPoint, ∀ fc ∈ getClips (analyze_heatmap_data pts),
      ∃ m ∈ mergedOf pts, fc.start = m.start ∧ fc.«end» = m.«end» + 60) := by
  refine ⟨fun pts thr => scanFromT_fst pts thr,
          fun pts thr => scanFromT_closeSpec pts thr, ?_⟩
  intro pts fc hfc
  obtain ⟨m, hm, hfm⟩ := mem_getClips_emit pts fc hfc
  exact ⟨m, hm, by rw [hfm]; exact ⟨rfl, rfl⟩⟩

set_option maxRecDepth 100000 in
/-- Witness for `c1_amended_buffers` on `c1series`: its tagged scan's
candidates project to the plain scan's, its fall-closed candidate (closed
at index 13) satisfies the close-time account, and its single output clip
[45..78] is its merged candidate's end 18 plus the one emission buffer. -/
theorem c1_amended_buffers_witness :
    ((scanFromT c1series (thresholdOf c1series) c1series 0 none 0 0).map Prod.fst
      = scanFrom c1series (thresholdOf c1series) c1series 0 none 0 0) ∧
    CloseSpec c1series (⟨5, 10, 18, [100, 100, 100]⟩, CloseInfo.fall 13) ∧
    (∃ m ∈ mergedOf c1series, (⟨5, 78, 100⟩ : FinalClip).start = m.start ∧
      (⟨5, 78, 100⟩ : FinalClip).«end» = m.«end» + 60) :=
  ⟨c1_amended_buffers.1 c1series (thresholdOf c1series) c1series 0 none 0 0,
   c1_amended_buffers.2.1 c1series (thresholdOf c1series) c1series 0 none 0 0
     (⟨5, 10, 18, [100, 100, 100]⟩, CloseInfo.fall 13) (by decide),
   c1_amended_buffers.2.2 c1series ⟨5, 78, 100⟩ (by decide)⟩

theorem binPoints_succ (norm : List NormPoint) (n : Nat) :
    binPoints norm (n + 1) = binStep norm (binPoints norm n) n := by
  rw [binPoints, binPoints, List.range_succ, List.foldl_append, List.foldl_cons,
    List.foldl_nil]

theorem binStep_length (norm : List NormPoint) (cond : List HeatPoint) (sec : Nat) :
    (binStep norm cond sec).length = cond.length + 1 := by
  simp only [binStep]
  split <;> simp

theorem binPoints_length (norm : List NormPoint) : ∀ D : Nat,
    (binPoints norm D).length = D := by
  intro D
  induction D with
  | zero => rfl
  | succ n ih => rw [binPoints_succ, binStep_length, ih]

theorem binStep_getD_lt (norm : List NormPoint) (cond : List HeatPoint) (sec s : Nat)
    (h : s < cond.length) :
    (binStep norm cond sec).getD s ⟨0, 0⟩ = cond.getD s ⟨0, 0⟩ := by
  simp only [binStep]
  split <;> exact List.getD_append _ _ _ _ h

theorem binStep_getD_last (norm : List NormPoint) (cond : List HeatPoint) (sec : Nat) :
    (binStep norm cond sec).getD cond.length ⟨0, 0⟩ =
      (if (binFilter norm sec).length ≠ 0 then
        ⟨(sec : ℚ), round2 (attSumN (binFilter norm sec) / ((binFilter norm sec).length : ℚ))⟩
      else ⟨(sec : ℚ), lastAttention cond⟩) := by
  simp only [binStep]
  by_cases h : (binFilter norm sec).length ≠ 0
  · rw [if_pos h, if_pos h, List.getD_append_right _ _ _ _ (le_refl _), Nat.sub_self,
      List.getD_cons_zero]
  · rw [if_neg h, if_neg h, List.getD_append_right _ _ _ _ (le_refl _), Nat.sub_self,
      List.getD_cons_zero]

theorem binPoints_getD_stable (norm : List NormPoint) : ∀ (D s : Nat), s < D →
    (binPoints norm D).getD s ⟨0, 0⟩ = (binPoints norm (s + 1)).getD s ⟨0, 0⟩ := by
  intro D
  induction D with
  | zero => intro s h; exact absurd h (Nat.not_lt_zero s)
  | succ n ih =>
    intro s h
    rcases Nat.lt_succ_iff_lt_or_eq.mp h with h' | rfl
    · rw [binPoints_succ, binStep_getD_lt norm _ n s (by rw [binPoints_length]; exact h')]
      exact ih s h'
    · rfl

theorem binPoints_getD_succ (norm : List NormPoint) (s : Nat) :
    (binPoints norm (s + 1)).getD s ⟨0, 0⟩ =
      (if (binFilter norm s).length ≠ 0 then
        ⟨(s : ℚ), round2 (attSumN (binFilter norm s) / ((binFilter norm s).length : ℚ))⟩
      else ⟨(s : ℚ), lastAttention (binPoints norm s)⟩) := by
  rw [binPoints_succ]
  have h := binStep_getD_last norm (binPoints norm s) s
  rwa [binPoints_length] at h

theorem lastAttention_getD (l : List HeatPoint) (h : l ≠ []) :
    lastAttention l = (l.getD (l.length - 1) ⟨0, 0⟩).attention := by
  have hlt : l.length - 1 < l.length := by
    have : l.length ≠ 0 := fun hz => h (List.length_eq_zero.mp hz)
    omega
  rw [lastAttention, List.getLast?_eq_getElem?, List.getElem?_eq_getElem hlt,
    List.getD_eq_getElem?_getD, List.getElem?_eq_getElem hlt]
  rfl

/-- C5 (amended): for every sample list and duration D the binning stage
returns exactly D points with second values 0, 1, ..., D-1 in increasing
order; a second containing at least one sample (s ≤ time < s+1) gets the
arithmetic mean of those samples' attentions ROUNDED TO TWO DECIMALS (the
claim omitted the rounding), an empty second gets the previous bin's
value, and an empty first bin gets 50.0. -/
theorem c5_amended_binning :
    (∀ (norm : List NormPoint) (D : Nat), (binPoints norm D).length = D) ∧
    (∀ (norm : List NormPoint) (D s : Nat), s < D →
      ((binPoints norm D).getD s ⟨0, 0⟩).duration = (s : ℚ)) ∧
    (∀ (norm : List NormPoint) (D s : Nat), s < D →
      ((binPoints norm D).getD s ⟨0, 0⟩).attention =
        (if (binFilter norm s).length ≠ 0 then
          round2 (attSumN (binFilter norm s) / ((binFilter norm s).length : ℚ))
        else if s = 0 then 50
        else ((binPoints norm D).getD (s - 1) ⟨0, 0⟩).attention)) := by
  refine ⟨fun norm D => binPoints_length norm D, ?_, ?_⟩
  · intro norm D s h
    rw [binPoints_getD_stable norm D s h, binPoints_getD_succ]
    split <;> rfl
  · intro norm D s h
    rw [binPoints_getD_stable norm D s h, binPoints_getD_succ]
    by_cases hne : (binFilter norm s).length ≠ 0
    · rw [if_pos hne, if_pos hne]
    · rw [if_neg hne, if_neg hne]
      by_cases hs : s = 0
      · subst hs
        rw [if_pos rfl]
        rfl
      · rw [if_neg hs]
        have hpos : 0 < s := Nat.pos_of_ne_zero hs
        have hne2 : binPoints norm s ≠ [] := by
          intro hnil
          have hl := binPoints_length norm s
          rw [hnil] at hl
          exact hs hl.symm
        show (⟨(s : ℚ), lastAttention (binPoints norm s)⟩ : HeatPoint).attention = _
        simp only
        rw [lastAttention_getD _ hne2, binPoints_length,
          binPoints_getD_stable norm D (s - 1) (by omega),
          binPoints_getD_stable norm s (s - 1) (by omega)]

/-- Witness for `c5_amended_binning` at the one-sample list with
attention 30 and D = 2: two bins, bin 1 is empty and copies bin 0. -/
theorem c5_amended_binning_witness :
    (binPoints [⟨0, 30⟩] 2).length = 2 ∧
    ((binPoints [⟨0, 30⟩] 2).getD 1 ⟨0, 0⟩).duration = ((1 : Nat) : ℚ) ∧
    ((binPoints [⟨0, 30⟩] 2).getD 1 ⟨0, 0⟩).attention =
      (if (binFilter [⟨0, 30⟩] 1).length ≠ 0 then
        round2 (attSumN (binFilter [⟨0, 30⟩] 1) / ((binFilter [⟨0, 30⟩] 1).length : ℚ))
      else if (1 : Nat) = 0 then 50
      else ((binPoints [⟨0, 30⟩] 2).getD (1 - 1) ⟨0, 0⟩).attention) :=
  ⟨c5_amended_binning.1 [⟨0, 30⟩] 2,
   c5_amended_binning.2.1 [⟨0, 30⟩] 2 1 (by decide),
   c5_amended_binning.2.2 [⟨0, 30⟩] 2 1 (by decide)⟩

/-- C9 (amended): for every transcript list and clip list, each processed
clip carries a word count equal to the sum of the whitespace-token counts
of its attached entries; and for entries with positive duration and clips
with end > start, the attached entries are exactly the transcript entries
whose half-open interval [start, start+duration) overlaps the clip's
[clip.start, clip.end).  (The restriction to non-degenerate intervals is
forced: the code's test attaches zero-duration entries that lie strictly
inside the clip although their interval is empty.) -/
theorem c9_amended_overlap :
    ∀ (tr : List TEntry) (cl : List ClipIn) (pc : ProcessedClip),
      pc ∈ extract_clip_transcripts tr cl →
      pc.word_count = (pc.transcript.map (fun e => pyWordCount e.text)).sum ∧
      ∀ e : TEntry, 0 < e.duration → pc.clip.start < pc.clip.«end» →
        (e ∈ pc.transcript ↔ e ∈ tr ∧ OverlapsClip e pc.clip) := by
  intro tr cl pc hpc
  rw [extract_clip_transcripts] at hpc
  obtain ⟨clip, _, hpc2⟩ := List.mem_map.mp hpc
  subst hpc2
  refine ⟨rfl, ?_⟩
  intro e hdur hcl
  show e ∈ tr.filter _ ↔ _
  rw [List.mem_filter]
  simp only [Bool.and_eq_true, decide_eq_true_eq]
  constructor
  · rintro ⟨he, h1, h2⟩
    refine ⟨he, max e.start clip.start, le_max_left _ _, ?_, le_max_right _ _, ?_⟩
    · exact max_lt (by linarith) h2
    · exact max_lt h1 hcl
  · rintro ⟨he, t, ht1, ht2, ht3, ht4⟩
    exact ⟨he, by linarith, by linarith⟩

/-- Witness for `c9_amended_overlap`: the entry "hello world" on [0, 2)
attached to the clip [1, 3), with word count 2. -/
theorem c9_amended_overlap_witness :
    ((⟨⟨1, 3⟩, [⟨"hello world".toList, 0, 2⟩], 2⟩ : ProcessedClip).word_count
      = ((⟨⟨1, 3⟩, [⟨"hello world".toList, 0, 2⟩], 2⟩ : ProcessedClip).transcript.map
          (fun e => pyWordCount e.text)).sum) ∧
    ((⟨"hello world".toList, 0, 2⟩ : TEntry)
        ∈ (⟨⟨1, 3⟩, [⟨"hello world".toList, 0, 2⟩], 2⟩ : ProcessedClip).transcript ↔
      (⟨"hello world".toList, 0, 2⟩ : TEntry) ∈ [(⟨"hello world".toList, 0, 2⟩ : TEntry)] ∧
        OverlapsClip ⟨"hello world".toList, 0, 2⟩
          (⟨⟨1, 3⟩, [⟨"hello world".toList, 0, 2⟩], 2⟩ : ProcessedClip).clip) :=
  ⟨(c9_amended_overlap [⟨"hello world".toList, 0, 2⟩] [⟨1, 3⟩]
      ⟨⟨1, 3⟩, [⟨"hello world".toList, 0, 2⟩], 2⟩ (by decide)).1,
   (c9_amended_overlap [⟨"hello world".toList, 0, 2⟩] [⟨1, 3⟩]
      ⟨⟨1, 3⟩, [⟨"hello world".toList, 0, 2⟩], 2⟩ (by decide)).2
     ⟨"hello world".toList, 0, 2⟩ (by decide) (by decide)⟩
